import Mathlib

/-!
Shallow embedding of the series-key codec from `tsdb/series/series_file.go`:
`AppendSeriesKey`, `ParseSeriesKey`/`ParseSeriesKeyTags`, `CompareSeriesKeys`,
`GenerateSeriesKeys`, `SeriesKeysSize`, `SeriesKeyOffsetsSize`,
`SeriesKeyBytesSize` and `SeriesKeySize`, together with theorems settling the
specification's claims about them.

Modelling conventions:
* Byte strings (`[]byte`) are `List Nat`; every byte written by the codec is
  `< 256` by construction.  `models.Tags` is `List Tag` with `Tag` a pair of
  byte strings (`models.Tag` is a struct of `Key`/`Value` byte slices).
* Go's in-place writes into the preallocated output buffer are modelled as
  pure list updates (`PutUint16`, `copyAt`).  Go's `uint16(v)` conversion at
  every `PutUint16` call site wraps modulo 2^16, and
  `binary.BigEndian.PutUint16` stores the high byte first; the wrap is folded
  into `PutUint16` here.
* `binary.BigEndian.Uint16(b[p:])` panics when fewer than two bytes remain;
  it is modelled with `List.getD _ _ 0`, which only differs on malformed
  buffers that the encoder never produces.
* An out-of-range slice index in the bulk paths (a Go runtime panic) is
  modelled by returning `none`.
-/

namespace TsdbSeries

/-- `models.Tag`: a key/value pair of byte strings. -/
structure Tag where
  Key : List Nat
  Value : List Nat
  deriving DecidableEq

/-- `models.Tags`: an ordered list of tags. -/
abbrev Tags := List Tag

/-- Go `SeriesKeyOffsetsSize(tagsN)`: `2 + 2*2*tagsN` (name length field plus
a key-length and a value-length field per tag, all `uint16`). -/
def SeriesKeyOffsetsSize (tagsN : Nat) : Nat :=
  2 + 2 * 2 * tagsN

/-- Go `SeriesKeyBytesSize(name, tags)`: `n := len(name)` then
`n += len(key); n += len(value)` for each tag. -/
def SeriesKeyBytesSize (name : List Nat) (tags : Tags) : Nat :=
  tags.foldl (fun n t => n + t.Key.length + t.Value.length) name.length

/-- Go `SeriesKeySize(name, tags)`. -/
def SeriesKeySize (name : List Nat) (tags : Tags) : Nat :=
  SeriesKeyOffsetsSize tags.length + SeriesKeyBytesSize name tags + 4

/-- Go `PutUint16(b, p, v)` = `binary.BigEndian.PutUint16(b[p:], v)`.  All
call sites in the source first convert the value with `uint16(...)`, which
wraps modulo 2^16; that wrap is folded in here.  The high byte is stored at
`p`, the low byte at `p+1`. -/
def PutUint16 (b : List Nat) (p : Nat) (v : Nat) : List Nat :=
  b.take p ++ [v % 65536 / 256, v % 256] ++ b.drop (p + 2)

/-- Go `GetUint16(b, p)` = `int(binary.BigEndian.Uint16(b[p:]))`. -/
def GetUint16 (b : List Nat) (p : Nat) : Nat :=
  b.getD p 0 * 256 + b.getD (p + 1) 0

/-- Go `copy(b[p:p+len(s)], s)` as a pure update. -/
def copyAt (b : List Nat) (p : Nat) (s : List Nat) : List Nat :=
  b.take p ++ s ++ b.drop (p + s.length)

/-- Go `GetSeriesKeyTagN(data)`. -/
def GetSeriesKeyTagN (data : List Nat) : Nat :=
  (GetUint16 data 0 - 2) / 4

/-- The per-tag loop of `AppendSeriesKey`: for each tag write `keyLen` at
`opos` and `valLen` at `opos+2`, copy the key then the value bytes at the
payload cursor `bpos`, then advance `opos` by 4 and `bpos` by the bytes
copied. -/
def appendTagsLoop (tags : Tags) (out : List Nat) (opos bpos : Nat) : List Nat :=
  match tags with
  | [] => out
  | tag :: rest =>
      let out1 := PutUint16 out opos tag.Key.length
      let out2 := copyAt out1 bpos tag.Key
      let out3 := PutUint16 out2 (opos + 2) tag.Value.length
      let out4 := copyAt out3 (bpos + tag.Key.length) tag.Value
      appendTagsLoop rest out4 (opos + 4) (bpos + tag.Key.length + tag.Value.length)

/-- Go `AppendSeriesKey(dst, name, tags)`.  The Go function distinguishes a
nil `dst` (fresh allocation) from a non-nil `dst` (grow if the spare
capacity is short, then extend); in both branches the value returned is the
old contents of `dst` followed by a fully written `size`-byte region (the
header and payload writes tile the whole region, so the region's previous
contents never show through).  The write sequence below follows the source
line by line: offsets size, name length, payload size, name bytes, then the
per-tag loop with `opos = 4` and `bpos = ofssz + 4 + len(name)`. -/
def AppendSeriesKey (dst name : List Nat) (tags : Tags) : List Nat :=
  let ofssz := SeriesKeyOffsetsSize tags.length
  let bytsz := SeriesKeyBytesSize name tags
  let size := ofssz + bytsz + 4
  let out0 := List.replicate size 0
  let out1 := PutUint16 out0 0 ofssz
  let out2 := PutUint16 out1 2 name.length
  let out3 := PutUint16 out2 (ofssz + 2) bytsz
  let out4 := copyAt out3 (ofssz + 4) name
  let out5 := appendTagsLoop tags out4 4 (ofssz + 4 + name.length)
  dst ++ out5

/-- The per-tag loop of `ParseSeriesKeyTags`: read `keyLen` at `opos` and
`valLen` at `opos+2`, slice the key and value out of the payload `byts` at
cursor `bpos`, advance and repeat `n` times. -/
def parseTagsLoop (data byts : List Nat) (n opos bpos : Nat) : Tags :=
  match n with
  | 0 => []
  | Nat.succ m =>
      let klen := GetUint16 data opos
      let key := (byts.drop bpos).take klen
      let vlen := GetUint16 data (opos + 2)
      let value := (byts.drop (bpos + klen)).take vlen
      ⟨key, value⟩ :: parseTagsLoop data byts m (opos + 4) (bpos + klen + vlen)

/-- Go `ParseSeriesKeyTags(data, tags)`.  The `tags` argument of the Go
function is only a capacity-reuse optimization (the container is reallocated
or resized to exactly `tagN` entries before being filled), so it has no
effect on the returned value and is dropped here. -/
def ParseSeriesKeyTags (data : List Nat) : List Nat × Tags :=
  let ofsN := GetUint16 data 0
  let byts := data.drop (ofsN + 2 + 2)
  let vlen := GetUint16 data 2
  let name := byts.take vlen
  let tagN := (ofsN - 2) / 4
  (name, parseTagsLoop data byts tagN 4 vlen)

/-- Go `ParseSeriesKey(data)` = `ParseSeriesKeyTags(data, nil)`. -/
def ParseSeriesKey (data : List Nat) : List Nat × Tags :=
  ParseSeriesKeyTags data

/-- Go standard library `bytes.Compare`: lexicographic byte comparison
returning -1, 0 or 1, with a shorter common-prefix list comparing less. -/
def bytesCompare : List Nat → List Nat → Int
  | [], [] => 0
  | [], _ :: _ => -1
  | _ :: _, [] => 1
  | x :: xs, y :: ys => if x < y then -1 else if y < x then 1 else bytesCompare xs ys

/-- Go `CompareSeriesKeys(a, b)`. -/
def CompareSeriesKeys (a b : List Nat) : Int :=
  if a.length = 0 ∧ b.length = 0 then 0
  else if a.length = 0 then -1
  else if b.length = 0 then 1
  else
    let ofsA := GetUint16 a 0
    let ofsB := GetUint16 b 0
    let posA := ofsA + 2
    let posB := ofsB + 2
    let keyLenA := GetUint16 a posA
    let keyLenB := GetUint16 b posB
    bytesCompare ((a.drop (posA + 2)).take keyLenA) ((b.drop (posB + 2)).take keyLenB)

/-- The loop of `GenerateSeriesKeys`: `buf = AppendSeriesKey(buf, names[i],
tagsSlice[i]); keys[i] = buf[offset:]`.  Indexing `tagsSlice[i]` past its
length panics in Go; modelled as `none`. -/
def genKeysLoop (buf : List Nat) : List (List Nat) → List Tags → Option (List (List Nat))
  | [], _ => some []
  | _ :: _, [] => none
  | name :: names, tags :: rest =>
      let offset := buf.length
      let buf2 := AppendSeriesKey buf name tags
      (genKeysLoop buf2 names rest).map (fun ks => buf2.drop offset :: ks)

/-- Go `SeriesKeysSize(names, tagsSlice)`: sums `SeriesKeySize(names[i],
tagsSlice[i])` over `i := range names`.  Indexing `tagsSlice[i]` past its
length panics in Go; modelled as `none`. -/
def SeriesKeysSize : List (List Nat) → List Tags → Option Nat
  | [], _ => some 0
  | _ :: _, [] => none
  | name :: names, tags :: rest =>
      (SeriesKeysSize names rest).map (fun n => SeriesKeySize name tags + n)

/-- Go `GenerateSeriesKeys(names, tagsSlice)`: first evaluates
`SeriesKeysSize` (for the buffer capacity, where a mismatch already
panics), then runs the append loop. -/
def GenerateSeriesKeys (names : List (List Nat)) (tagsSlice : List Tags) :
    Option (List (List Nat)) :=
  match SeriesKeysSize names tagsSlice with
  | none => none
  | some _ => genKeysLoop [] names tagsSlice

/-- The two big-endian bytes of `uint16(v)`: the layout of every length
header field (§3 of the spec). -/
def u16 (v : Nat) : List Nat :=
  [v % 65536 / 256, v % 256]

/-- The per-tag length fields of the offsets section, in order: `keyLen`
then `valLen` for each tag (§3 of the spec). -/
def tagLens : Tags → List Nat
  | [] => []
  | t :: ts => u16 t.Key.length ++ u16 t.Value.length ++ tagLens ts

/-- The tag portion of the payload: each tag's key bytes then value bytes,
concatenated in order (§3 of the spec). -/
def tagBytes : Tags → List Nat
  | [] => []
  | t :: ts => t.Key ++ t.Value ++ tagBytes ts

end TsdbSeries

namespace TsdbSeries

/-! ### List bookkeeping lemmas for positional buffer writes and reads -/

theorem take_app (pre suf : List Nat) : (pre ++ suf).take pre.length = pre := by
  induction pre with
  | nil => simp
  | cons a l ih => simp [ih]

theorem drop_app_add (pre suf : List Nat) (n : Nat) :
    (pre ++ suf).drop (pre.length + n) = suf.drop n := by
  induction pre with
  | nil => simp
  | cons a l ih =>
      have h : (a :: l).length + n = (l.length + n) + 1 := by simp; omega
      rw [List.cons_append, h, List.drop_succ_cons, ih]

theorem drop_app (pre suf : List Nat) : (pre ++ suf).drop pre.length = suf := by
  have h := drop_app_add pre suf 0
  rw [Nat.add_zero, List.drop_zero] at h
  exact h

theorem getD_app (pre suf : List Nat) (n : Nat) :
    (pre ++ suf).getD (pre.length + n) 0 = suf.getD n 0 := by
  induction pre with
  | nil => simp
  | cons a l ih =>
      have h : (a :: l).length + n = (l.length + n) + 1 := by simp; omega
      rw [List.cons_append, h, List.getD_cons_succ, ih]

theorem getUint16_app (pre suf : List Nat) :
    GetUint16 (pre ++ suf) pre.length = GetUint16 suf 0 := by
  unfold GetUint16
  have h0 := getD_app pre suf 0
  have h1 := getD_app pre suf 1
  rw [Nat.add_zero] at h0
  rw [h0, h1]

theorem getUint16_u16 (v : Nat) (suf : List Nat) :
    GetUint16 (u16 v ++ suf) 0 = v % 65536 := by
  unfold GetUint16 u16
  simp only [List.cons_append, List.getD_cons_zero, List.getD_cons_succ, List.nil_append]
  omega

theorem putUint16_at (b pre suf : List Nat) (c d p v : Nat)
    (hb : b = pre ++ c :: d :: suf) (hp : p = pre.length) :
    PutUint16 b p v = pre ++ (u16 v ++ suf) := by
  subst hb hp
  unfold PutUint16 u16
  rw [take_app pre (c :: d :: suf), drop_app_add pre (c :: d :: suf) 2]
  simp

theorem copyAt_at (b pre suf s : List Nat) (p : Nat)
    (hb : b = pre ++ (List.replicate s.length 0 ++ suf)) (hp : p = pre.length) :
    copyAt b p s = pre ++ (s ++ suf) := by
  subst hb hp
  unfold copyAt
  have h2 : (pre ++ (List.replicate s.length 0 ++ suf)).drop (pre.length + s.length) = suf := by
    rw [← List.append_assoc]
    have h3 : pre.length + s.length = (pre ++ List.replicate s.length 0).length := by simp
    rw [h3, drop_app]
  rw [take_app pre (List.replicate s.length 0 ++ suf), h2, List.append_assoc]

/-! ### Lengths of the key segments -/

theorem u16_length (v : Nat) : (u16 v).length = 2 := rfl

theorem tagLens_length (ts : Tags) : (tagLens ts).length = 4 * ts.length := by
  induction ts with
  | nil => simp [tagLens]
  | cons t r ih => simp [tagLens, u16, ih]; omega

theorem tagBytes_length (ts : Tags) :
    (tagBytes ts).length = (ts.map (fun t => t.Key.length + t.Value.length)).sum := by
  induction ts with
  | nil => simp [tagBytes]
  | cons t r ih => simp [tagBytes, ih]; omega

theorem foldl_tagSize (ts : Tags) : ∀ init : Nat,
    ts.foldl (fun n t => n + t.Key.length + t.Value.length) init
      = init + (tagBytes ts).length := by
  induction ts with
  | nil => intro init; simp [tagBytes]
  | cons t r ih => intro init; simp [List.foldl_cons, tagBytes, ih]; omega

theorem seriesKeyBytesSize_eq (name : List Nat) (ts : Tags) :
    SeriesKeyBytesSize name ts = name.length + (tagBytes ts).length := by
  unfold SeriesKeyBytesSize
  exact foldl_tagSize ts name.length

end TsdbSeries

namespace TsdbSeries

/-! ### Normal form of the encoder -/

/-- The tag loop of the encoder fills the zero regions reserved for the tag
length fields and the tag payload bytes, leaving everything before them
untouched: `pre` is the part of the buffer before `opos`, `mid` the part
between the end of the tag-length region and `bpos`. -/
theorem appendTagsLoop_eq (ts : Tags) :
    ∀ pre mid : List Nat,
      appendTagsLoop ts
          (pre ++ (List.replicate (4 * ts.length) 0
            ++ (mid ++ List.replicate (tagBytes ts).length 0)))
          pre.length (pre.length + (4 * ts.length + mid.length))
        = pre ++ (tagLens ts ++ (mid ++ tagBytes ts)) := by
  induction ts with
  | nil =>
      intro pre mid
      simp [appendTagsLoop, tagLens, tagBytes]
  | cons t rest ih =>
      intro pre mid
      have hsplit2 : List.replicate (4 * rest.length + 2) (0 : Nat)
          = 0 :: 0 :: List.replicate (4 * rest.length) 0 := by
        rw [(by omega : 4 * rest.length + 2 = 4 * rest.length + 1 + 1),
          List.replicate_succ, List.replicate_succ]
      have hbuf :
          pre ++ (List.replicate (4 * (t :: rest).length) 0
            ++ (mid ++ List.replicate (tagBytes (t :: rest)).length 0))
          = pre ++ (0 :: 0 :: (List.replicate (4 * rest.length + 2) 0
              ++ (mid ++ (List.replicate t.Key.length 0
                ++ (List.replicate t.Value.length 0
                  ++ List.replicate (tagBytes rest).length 0))))) := by
        have h4 : 4 * (t :: rest).length = 4 * rest.length + 2 + 1 + 1 := by
          simp [List.length_cons]; omega
        have hb : (tagBytes (t :: rest)).length
            = t.Key.length + (t.Value.length + (tagBytes rest).length) := by
          simp [tagBytes]
        rw [h4, hb, List.replicate_succ, List.replicate_succ, List.replicate_add,
          List.replicate_add]
        simp [List.append_assoc]
      rw [hbuf]
      simp only [appendTagsLoop]
      rw [putUint16_at _ pre _ 0 0 _ _ rfl rfl]
      rw [copyAt_at
        (pre ++ (u16 t.Key.length ++ (List.replicate (4 * rest.length + 2) 0
          ++ (mid ++ (List.replicate t.Key.length 0
            ++ (List.replicate t.Value.length 0
              ++ List.replicate (tagBytes rest).length 0))))))
        (pre ++ (u16 t.Key.length ++ (List.replicate (4 * rest.length + 2) 0 ++ mid)))
        (List.replicate t.Value.length 0 ++ List.replicate (tagBytes rest).length 0)
        t.Key
        (pre.length + (4 * (t :: rest).length + mid.length))
        (by simp [List.append_assoc])
        (by simp [u16]; omega)]
      rw [putUint16_at
        ((pre ++ (u16 t.Key.length ++ (List.replicate (4 * rest.length + 2) 0 ++ mid)))
          ++ (t.Key ++ (List.replicate t.Value.length 0
            ++ List.replicate (tagBytes rest).length 0)))
        (pre ++ u16 t.Key.length)
        (List.replicate (4 * rest.length) 0
          ++ (mid ++ (t.Key ++ (List.replicate t.Value.length 0
            ++ List.replicate (tagBytes rest).length 0))))
        0 0 (pre.length + 2) t.Value.length
        (by simp [hsplit2, List.append_assoc])
        (by simp [u16])]
      rw [copyAt_at
        ((pre ++ u16 t.Key.length)
          ++ (u16 t.Value.length ++ (List.replicate (4 * rest.length) 0
            ++ (mid ++ (t.Key ++ (List.replicate t.Value.length 0
              ++ List.replicate (tagBytes rest).length 0))))))
        ((pre ++ u16 t.Key.length)
          ++ (u16 t.Value.length ++ (List.replicate (4 * rest.length) 0
            ++ (mid ++ t.Key))))
        (List.replicate (tagBytes rest).length 0)
        t.Value
        (pre.length + (4 * (t :: rest).length + mid.length) + t.Key.length)
        (by simp [List.append_assoc])
        (by simp [u16]; omega)]
      have hifinal := ih (pre ++ (u16 t.Key.length ++ u16 t.Value.length))
        (mid ++ (t.Key ++ t.Value))
      have hrhs : pre ++ (tagLens (t :: rest) ++ (mid ++ tagBytes (t :: rest)))
          = (pre ++ (u16 t.Key.length ++ u16 t.Value.length))
            ++ (tagLens rest ++ ((mid ++ (t.Key ++ t.Value)) ++ tagBytes rest)) := by
        simp [tagLens, tagBytes, List.append_assoc]
      rw [hrhs]
      convert hifinal using 2 <;> (simp [u16, List.append_assoc] <;> omega)

end TsdbSeries

namespace TsdbSeries

/-- Normal form of the encoder: the buffer writes of `AppendSeriesKey`
exactly tile the freshly reserved region, so the result is the old `dst`
followed by the header and payload segments of §3 of the spec:
`offsetsSize`, `nameLen`, the per-tag length fields, `payloadSize`, then
the name and tag bytes. -/
theorem appendSeriesKey_eq (dst name : List Nat) (ts : Tags) :
    AppendSeriesKey dst name ts
      = dst ++ (u16 (SeriesKeyOffsetsSize ts.length)
          ++ (u16 name.length
            ++ (tagLens ts
              ++ (u16 (SeriesKeyBytesSize name ts)
                ++ (name ++ tagBytes ts))))) := by
  simp only [AppendSeriesKey]
  have hsize : SeriesKeyOffsetsSize ts.length + SeriesKeyBytesSize name ts + 4
      = 2 + (2 + (4 * ts.length + (2 + (name.length + (tagBytes ts).length)))) := by
    rw [seriesKeyBytesSize_eq]
    simp [SeriesKeyOffsetsSize]
    omega
  have hrep : List.replicate
        (SeriesKeyOffsetsSize ts.length + SeriesKeyBytesSize name ts + 4) (0 : Nat)
      = 0 :: 0 :: (0 :: 0 :: (List.replicate (4 * ts.length) 0
          ++ (0 :: 0 :: (List.replicate name.length 0
            ++ List.replicate (tagBytes ts).length 0)))) := by
    rw [hsize, List.replicate_add, List.replicate_add, List.replicate_add,
      List.replicate_add, List.replicate_add]
    simp [List.replicate_succ, List.append_assoc]
  rw [hrep]
  rw [putUint16_at
    (0 :: 0 :: (0 :: 0 :: (List.replicate (4 * ts.length) 0
      ++ (0 :: 0 :: (List.replicate name.length 0
        ++ List.replicate (tagBytes ts).length 0)))))
    []
    (0 :: 0 :: (List.replicate (4 * ts.length) 0
      ++ (0 :: 0 :: (List.replicate name.length 0
        ++ List.replicate (tagBytes ts).length 0))))
    0 0 0 (SeriesKeyOffsetsSize ts.length) (List.nil_append _).symm rfl]
  rw [putUint16_at
    ([] ++ (u16 (SeriesKeyOffsetsSize ts.length)
      ++ (0 :: 0 :: (List.replicate (4 * ts.length) 0
        ++ (0 :: 0 :: (List.replicate name.length 0
          ++ List.replicate (tagBytes ts).length 0))))))
    (u16 (SeriesKeyOffsetsSize ts.length))
    (List.replicate (4 * ts.length) 0
      ++ (0 :: 0 :: (List.replicate name.length 0
        ++ List.replicate (tagBytes ts).length 0)))
    0 0 2 name.length (by simp) (by simp [u16])]
  rw [putUint16_at
    (u16 (SeriesKeyOffsetsSize ts.length)
      ++ (u16 name.length
        ++ (List.replicate (4 * ts.length) 0
          ++ (0 :: 0 :: (List.replicate name.length 0
            ++ List.replicate (tagBytes ts).length 0)))))
    (u16 (SeriesKeyOffsetsSize ts.length)
      ++ (u16 name.length ++ List.replicate (4 * ts.length) 0))
    (List.replicate name.length 0 ++ List.replicate (tagBytes ts).length 0)
    0 0 (SeriesKeyOffsetsSize ts.length + 2) (SeriesKeyBytesSize name ts)
    (by simp [List.append_assoc])
    (by simp [u16, SeriesKeyOffsetsSize]; omega)]
  rw [copyAt_at
    ((u16 (SeriesKeyOffsetsSize ts.length)
      ++ (u16 name.length ++ List.replicate (4 * ts.length) 0))
      ++ (u16 (SeriesKeyBytesSize name ts)
        ++ (List.replicate name.length 0 ++ List.replicate (tagBytes ts).length 0)))
    ((u16 (SeriesKeyOffsetsSize ts.length)
      ++ (u16 name.length ++ List.replicate (4 * ts.length) 0))
      ++ u16 (SeriesKeyBytesSize name ts))
    (List.replicate (tagBytes ts).length 0)
    name
    (SeriesKeyOffsetsSize ts.length + 4)
    (by simp [List.append_assoc])
    (by simp [u16, SeriesKeyOffsetsSize]; omega)]
  have hifinal := appendTagsLoop_eq ts
    (u16 (SeriesKeyOffsetsSize ts.length) ++ u16 name.length)
    (u16 (SeriesKeyBytesSize name ts) ++ name)
  have hgoal : appendTagsLoop ts
      (((u16 (SeriesKeyOffsetsSize ts.length)
        ++ (u16 name.length ++ List.replicate (4 * ts.length) 0))
        ++ u16 (SeriesKeyBytesSize name ts))
        ++ (name ++ List.replicate (tagBytes ts).length 0))
      4 (SeriesKeyOffsetsSize ts.length + 4 + name.length)
      = (u16 (SeriesKeyOffsetsSize ts.length) ++ u16 name.length)
        ++ (tagLens ts ++ ((u16 (SeriesKeyBytesSize name ts) ++ name) ++ tagBytes ts)) := by
    convert hifinal using 2 <;>
      (simp [u16, SeriesKeyOffsetsSize, List.append_assoc] <;> omega)
  rw [hgoal]
  simp [List.append_assoc]

end TsdbSeries

namespace TsdbSeries

theorem appendSeriesKey_append (dst name : List Nat) (ts : Tags) :
    AppendSeriesKey dst name ts = dst ++ AppendSeriesKey [] name ts := by
  rw [appendSeriesKey_eq, appendSeriesKey_eq]
  simp

theorem appendSeriesKey_length (dst name : List Nat) (ts : Tags) :
    (AppendSeriesKey dst name ts).length = dst.length + SeriesKeySize name ts := by
  rw [appendSeriesKey_eq]
  simp [u16, SeriesKeySize, SeriesKeyOffsetsSize, seriesKeyBytesSize_eq,
    tagLens_length] <;> omega

/-- Reading a 16-bit field that sits at offset `p` in the buffer recovers
the stored value modulo 2^16. -/
theorem getUint16_field (b pre suf : List Nat) (p v : Nat)
    (hb : b = pre ++ (u16 v ++ suf)) (hp : p = pre.length) :
    GetUint16 b p = v % 65536 := by
  subst hb hp
  rw [getUint16_app pre (u16 v ++ suf), getUint16_u16]

/-! ### The decoder recovers the encoded fields -/

theorem parseTagsLoop_eq (ts : Tags) :
    ∀ data byts dpre dsuf bpre bsuf : List Nat,
      data = dpre ++ (tagLens ts ++ dsuf) →
      byts = bpre ++ (tagBytes ts ++ bsuf) →
      (∀ t ∈ ts, t.Key.length ≤ 65535 ∧ t.Value.length ≤ 65535) →
      parseTagsLoop data byts ts.length dpre.length bpre.length = ts := by
  induction ts with
  | nil =>
      intro data byts dpre dsuf bpre bsuf hd hb hbound
      simp [parseTagsLoop]
  | cons t rest ih =>
      intro data byts dpre dsuf bpre bsuf hd hb hbound
      obtain ⟨hK, hV⟩ := hbound t (List.mem_cons_self t rest)
      have hboundRest : ∀ x ∈ rest, x.Key.length ≤ 65535 ∧ x.Value.length ≤ 65535 :=
        fun x hx => hbound x (List.mem_cons_of_mem t hx)
      simp only [List.length_cons, parseTagsLoop]
      have hklen : GetUint16 data dpre.length = t.Key.length := by
        rw [getUint16_field data dpre
          (u16 t.Value.length ++ (tagLens rest ++ dsuf)) dpre.length t.Key.length
          (by rw [hd]; simp [tagLens, List.append_assoc]) rfl]
        omega
      have hvlen : GetUint16 data (dpre.length + 2) = t.Value.length := by
        rw [getUint16_field data (dpre ++ u16 t.Key.length)
          (tagLens rest ++ dsuf) (dpre.length + 2) t.Value.length
          (by rw [hd]; simp [tagLens, List.append_assoc]) (by simp [u16])]
        omega
      have hdrop1 : byts.drop bpre.length = t.Key ++ (t.Value ++ (tagBytes rest ++ bsuf)) := by
        rw [hb, drop_app bpre (tagBytes (t :: rest) ++ bsuf)]
        simp [tagBytes, List.append_assoc]
      have hkey : (byts.drop bpre.length).take t.Key.length = t.Key := by
        rw [hdrop1]
        exact take_app t.Key (t.Value ++ (tagBytes rest ++ bsuf))
      have hdrop2 : byts.drop (bpre.length + t.Key.length)
          = t.Value ++ (tagBytes rest ++ bsuf) := by
        have hb2 : byts = (bpre ++ t.Key) ++ (t.Value ++ (tagBytes rest ++ bsuf)) := by
          rw [hb]; simp [tagBytes, List.append_assoc]
        have hl : bpre.length + t.Key.length = (bpre ++ t.Key).length := by simp
        rw [hb2, hl, drop_app]
      have hval : (byts.drop (bpre.length + t.Key.length)).take t.Value.length = t.Value := by
        rw [hdrop2]
        exact take_app t.Value (tagBytes rest ++ bsuf)
      have hrec := ih data byts (dpre ++ (u16 t.Key.length ++ u16 t.Value.length)) dsuf
        (bpre ++ (t.Key ++ t.Value)) bsuf
        (by rw [hd]; simp [tagLens, List.append_assoc])
        (by rw [hb]; simp [tagBytes, List.append_assoc])
        hboundRest
      have hp1 : (dpre ++ (u16 t.Key.length ++ u16 t.Value.length)).length
          = dpre.length + 4 := by
        simp [u16]
      have hp2 : (bpre ++ (t.Key ++ t.Value)).length
          = bpre.length + t.Key.length + t.Value.length := by
        simp <;> omega
      rw [hp1, hp2] at hrec
      rw [hklen, hvlen, hkey, hval, hrec]

/-- Round-trip core: decoding an encoded key recovers the name and tag list
exactly, provided every length header fits in 16 bits (name, tag keys and
tag values at most 65535 bytes, and at most 16383 tags so that the offsets
section size `2 + 4*tagCount` also fits). -/
theorem parse_append (name : List Nat) (ts : Tags)
    (h1 : name.length ≤ 65535)
    (h2 : ∀ t ∈ ts, t.Key.length ≤ 65535 ∧ t.Value.length ≤ 65535)
    (h3 : ts.length ≤ 16383) :
    ParseSeriesKey (AppendSeriesKey [] name ts) = (name, ts) := by
  simp only [ParseSeriesKey]
  rw [appendSeriesKey_eq]
  simp only [List.nil_append]
  generalize hdata : u16 (SeriesKeyOffsetsSize ts.length)
      ++ (u16 name.length ++ (tagLens ts
        ++ (u16 (SeriesKeyBytesSize name ts) ++ (name ++ tagBytes ts)))) = data
  simp only [ParseSeriesKeyTags]
  have hofs : GetUint16 data 0 = SeriesKeyOffsetsSize ts.length := by
    rw [← hdata, getUint16_u16]
    have hlt : SeriesKeyOffsetsSize ts.length < 65536 := by
      unfold SeriesKeyOffsetsSize; omega
    omega
  have hnl : GetUint16 data 2 = name.length := by
    rw [getUint16_field data (u16 (SeriesKeyOffsetsSize ts.length))
      (tagLens ts ++ (u16 (SeriesKeyBytesSize name ts) ++ (name ++ tagBytes ts)))
      2 name.length hdata.symm (u16_length _).symm]
    omega
  rw [hofs, hnl]
  have hbyts : data.drop (SeriesKeyOffsetsSize ts.length + 2 + 2)
      = name ++ tagBytes ts := by
    have hP : data = (u16 (SeriesKeyOffsetsSize ts.length)
        ++ (u16 name.length ++ (tagLens ts ++ u16 (SeriesKeyBytesSize name ts))))
        ++ (name ++ tagBytes ts) := by
      rw [← hdata]; simp [List.append_assoc]
    have hPlen : (u16 (SeriesKeyOffsetsSize ts.length)
        ++ (u16 name.length ++ (tagLens ts ++ u16 (SeriesKeyBytesSize name ts)))).length
        = SeriesKeyOffsetsSize ts.length + 2 + 2 := by
      simp [u16, tagLens_length, SeriesKeyOffsetsSize] <;> omega
    rw [hP, ← hPlen, drop_app]
  rw [hbyts]
  have htagN : (SeriesKeyOffsetsSize ts.length - 2) / 4 = ts.length := by
    unfold SeriesKeyOffsetsSize; omega
  rw [htagN, take_app name (tagBytes ts)]
  have hloop := parseTagsLoop_eq ts data (name ++ tagBytes ts)
    (u16 (SeriesKeyOffsetsSize ts.length) ++ u16 name.length)
    (u16 (SeriesKeyBytesSize name ts) ++ (name ++ tagBytes ts))
    name []
    (by rw [← hdata]; simp [List.append_assoc])
    (by simp)
    h2
  have hl4 : (u16 (SeriesKeyOffsetsSize ts.length) ++ u16 name.length).length = 4 := by
    simp [u16]
  rw [hl4] at hloop
  rw [hloop]

end TsdbSeries

namespace TsdbSeries

/-! ### Algebra of `bytesCompare` -/

theorem bytesCompare_self (x : List Nat) : bytesCompare x x = 0 := by
  induction x with
  | nil => rfl
  | cons a l ih => simp [bytesCompare, ih]

theorem bytesCompare_antisym (x : List Nat) :
    ∀ y, bytesCompare x y = -bytesCompare y x := by
  induction x with
  | nil => intro y; cases y <;> simp [bytesCompare]
  | cons a l ih =>
      intro y
      cases y with
      | nil => simp [bytesCompare]
      | cons b m =>
          simp only [bytesCompare]
          rcases Nat.lt_trichotomy a b with h | h | h
          · rw [if_pos h, if_neg (by omega : ¬ b < a), if_pos h]
          · subst h
            rw [if_neg (by omega : ¬ a < a), if_neg (by omega : ¬ a < a),
              if_neg (by omega : ¬ a < a), if_neg (by omega : ¬ a < a)]
            exact ih m
          · rw [if_neg (by omega : ¬ a < b), if_pos h, if_pos h]
            decide

theorem bytesCompare_trans (x : List Nat) :
    ∀ y z, bytesCompare x y ≤ 0 → bytesCompare y z ≤ 0 → bytesCompare x z ≤ 0 := by
  induction x with
  | nil =>
      intro y z h1 h2
      cases z <;> simp [bytesCompare]
  | cons a l ih =>
      intro y z h1 h2
      cases y with
      | nil =>
          exfalso
          simp only [bytesCompare] at h1
          omega
      | cons b m =>
          cases z with
          | nil =>
              exfalso
              simp only [bytesCompare] at h2
              omega
          | cons c o =>
              simp only [bytesCompare] at h1 h2 ⊢
              have hab2 : a ≤ b := by
                by_contra hcon
                rw [if_neg (by omega), if_pos (by omega)] at h1
                omega
              have hbc2 : b ≤ c := by
                by_contra hcon
                rw [if_neg (by omega), if_pos (by omega)] at h2
                omega
              by_cases hac : a < c
              · rw [if_pos hac]
                omega
              · rw [if_neg hac, if_neg (by omega)]
                have h1a : bytesCompare l m ≤ 0 := by
                  rw [if_neg (by omega), if_neg (by omega)] at h1
                  exact h1
                have h2a : bytesCompare m o ≤ 0 := by
                  rw [if_neg (by omega), if_neg (by omega)] at h2
                  exact h2
                exact ih m o h1a h2a

theorem bytesCompare_neg_iff (x : List Nat) :
    ∀ y, bytesCompare x y = -1 ↔ List.Lex (· < ·) x y := by
  induction x with
  | nil =>
      intro y
      cases y with
      | nil =>
          constructor
          · intro h; simp [bytesCompare] at h
          · intro h; cases h
      | cons b m =>
          constructor
          · intro _; exact List.Lex.nil
          · intro _; rfl
  | cons a l ih =>
      intro y
      cases y with
      | nil =>
          constructor
          · intro h; simp [bytesCompare] at h
          · intro h; cases h
      | cons b m =>
          simp only [bytesCompare]
          rcases Nat.lt_trichotomy a b with h | h | h
          · rw [if_pos h]
            constructor
            · intro _; exact List.Lex.rel h
            · intro _; rfl
          · subst h
            rw [if_neg (by omega : ¬ a < a), if_neg (by omega : ¬ a < a), ih m]
            constructor
            · exact List.Lex.cons
            · intro hl
              cases hl with
              | cons h1 => exact h1
              | rel h1 => exact absurd h1 (by omega)
          · rw [if_neg (by omega : ¬ a < b), if_pos h]
            constructor
            · intro h1; exact absurd h1 (by decide)
            · intro hl
              exfalso
              cases hl with
              | cons h1 => omega
              | rel h1 => omega

theorem bytesCompare_zero_iff (x : List Nat) :
    ∀ y, bytesCompare x y = 0 ↔ x = y := by
  induction x with
  | nil =>
      intro y
      cases y with
      | nil =>
          constructor
          · intro _; rfl
          · intro _; rfl
      | cons b m =>
          constructor
          · intro h; simp [bytesCompare] at h
          · intro h; cases h
  | cons a l ih =>
      intro y
      cases y with
      | nil =>
          constructor
          · intro h; simp [bytesCompare] at h
          · intro h; cases h
      | cons b m =>
          simp only [bytesCompare]
          rcases Nat.lt_trichotomy a b with h | h | h
          · rw [if_pos h]
            constructor
            · intro h1; exact absurd h1 (by decide)
            · intro h1
              injection h1 with h2 h3
              omega
          · subst h
            rw [if_neg (by omega : ¬ a < a), if_neg (by omega : ¬ a < a), ih m]
            constructor
            · intro h1; rw [h1]
            · intro h1
              injection h1 with h2 h3
          · rw [if_neg (by omega : ¬ a < b), if_pos h]
            constructor
            · intro h1; exact absurd h1 (by decide)
            · intro h1
              injection h1 with h2 h3
              omega

theorem bytesCompare_one_iff (x y : List Nat) :
    bytesCompare x y = 1 ↔ List.Lex (· < ·) y x := by
  have ha := bytesCompare_antisym x y
  constructor
  · intro h
    rw [← bytesCompare_neg_iff]
    omega
  · intro h
    have h2 := (bytesCompare_neg_iff y x).mpr h
    omega

end TsdbSeries

namespace TsdbSeries

/-! ### `CompareSeriesKeys` is reflexive, antisymmetric and transitive -/

theorem compareSeriesKeys_self (k : List Nat) : CompareSeriesKeys k k = 0 := by
  by_cases h : k.length = 0
  · simp [CompareSeriesKeys, h]
  · simp only [CompareSeriesKeys]
    rw [if_neg (fun hc => h hc.1), if_neg h, if_neg h]
    exact bytesCompare_self _

theorem compareSeriesKeys_antisym (a b : List Nat) :
    CompareSeriesKeys a b = -CompareSeriesKeys b a := by
  by_cases ha : a.length = 0 <;> by_cases hb : b.length = 0
  · simp [CompareSeriesKeys, ha, hb]
  · simp [CompareSeriesKeys, ha, hb]
  · simp [CompareSeriesKeys, ha, hb]
  · simp only [CompareSeriesKeys]
    rw [if_neg (fun hc => ha hc.1), if_neg ha, if_neg hb,
      if_neg (fun hc => hb hc.1), if_neg hb, if_neg ha]
    exact bytesCompare_antisym _ _

theorem compareSeriesKeys_trans (a b c : List Nat)
    (h1 : CompareSeriesKeys a b ≤ 0) (h2 : CompareSeriesKeys b c ≤ 0) :
    CompareSeriesKeys a c ≤ 0 := by
  by_cases ha : a.length = 0
  · by_cases hc : c.length = 0
    · simp [CompareSeriesKeys, ha, hc]
    · simp [CompareSeriesKeys, ha, hc]
  · by_cases hb : b.length = 0
    · exfalso
      simp only [CompareSeriesKeys] at h1
      rw [if_neg (fun hcon => ha hcon.1), if_neg ha, if_pos hb] at h1
      omega
    · by_cases hc : c.length = 0
      · exfalso
        simp only [CompareSeriesKeys] at h2
        rw [if_neg (fun hcon => hb hcon.1), if_neg hb, if_pos hc] at h2
        omega
      · simp only [CompareSeriesKeys] at h1 h2 ⊢
        rw [if_neg (fun hcon => ha hcon.1), if_neg ha, if_neg hb] at h1
        rw [if_neg (fun hcon => hb hcon.1), if_neg hb, if_neg hc] at h2
        rw [if_neg (fun hcon => ha hcon.1), if_neg ha, if_neg hc]
        exact bytesCompare_trans _ _ _ h1 h2

/-! ### Reading the headers of an encoded key -/

/-- The `offsetsSize` header of an encoded key, provided it did not wrap
(at most 16383 tags). -/
theorem getUint16_enc_zero (name : List Nat) (ts : Tags) (ht : ts.length ≤ 16383) :
    GetUint16 (AppendSeriesKey [] name ts) 0 = SeriesKeyOffsetsSize ts.length := by
  rw [appendSeriesKey_eq]
  simp only [List.nil_append]
  rw [getUint16_u16]
  have hlt : SeriesKeyOffsetsSize ts.length < 65536 := by
    unfold SeriesKeyOffsetsSize; omega
  omega

/-- The `payloadSize` header of an encoded key, provided neither it nor the
`offsetsSize` header wrapped. -/
theorem getUint16_enc_paysize (name : List Nat) (ts : Tags)
    (hb : SeriesKeyBytesSize name ts ≤ 65535) :
    GetUint16 (AppendSeriesKey [] name ts) (SeriesKeyOffsetsSize ts.length + 2)
      = SeriesKeyBytesSize name ts := by
  rw [appendSeriesKey_eq]
  simp only [List.nil_append]
  rw [getUint16_field
    (u16 (SeriesKeyOffsetsSize ts.length)
      ++ (u16 name.length ++ (tagLens ts
        ++ (u16 (SeriesKeyBytesSize name ts) ++ (name ++ tagBytes ts)))))
    (u16 (SeriesKeyOffsetsSize ts.length) ++ (u16 name.length ++ tagLens ts))
    (name ++ tagBytes ts)
    (SeriesKeyOffsetsSize ts.length + 2) (SeriesKeyBytesSize name ts)
    (by simp [List.append_assoc])
    (by simp [u16, tagLens_length, SeriesKeyOffsetsSize] <;> omega)]
  omega

/-- Dropping the headers of an encoded key leaves exactly the payload. -/
theorem drop_enc_payload (name : List Nat) (ts : Tags) :
    (AppendSeriesKey [] name ts).drop (SeriesKeyOffsetsSize ts.length + 2 + 2)
      = name ++ tagBytes ts := by
  rw [appendSeriesKey_eq]
  simp only [List.nil_append]
  have hP : u16 (SeriesKeyOffsetsSize ts.length)
      ++ (u16 name.length ++ (tagLens ts
        ++ (u16 (SeriesKeyBytesSize name ts) ++ (name ++ tagBytes ts))))
      = (u16 (SeriesKeyOffsetsSize ts.length)
        ++ (u16 name.length ++ (tagLens ts ++ u16 (SeriesKeyBytesSize name ts))))
        ++ (name ++ tagBytes ts) := by
    simp [List.append_assoc]
  have hPlen : (u16 (SeriesKeyOffsetsSize ts.length)
      ++ (u16 name.length ++ (tagLens ts ++ u16 (SeriesKeyBytesSize name ts)))).length
      = SeriesKeyOffsetsSize ts.length + 2 + 2 := by
    simp [u16, tagLens_length, SeriesKeyOffsetsSize] <;> omega
  rw [hP, ← hPlen, drop_app]

/-- On two encoded keys whose headers did not wrap, `CompareSeriesKeys` is
exactly `bytes.Compare` on the two payloads (name bytes followed by the
concatenated tag key/value bytes). -/
theorem compare_append (n1 : List Nat) (t1 : Tags) (n2 : List Nat) (t2 : Tags)
    (hb1 : SeriesKeyBytesSize n1 t1 ≤ 65535) (ht1 : t1.length ≤ 16383)
    (hb2 : SeriesKeyBytesSize n2 t2 ≤ 65535) (ht2 : t2.length ≤ 16383) :
    CompareSeriesKeys (AppendSeriesKey [] n1 t1) (AppendSeriesKey [] n2 t2)
      = bytesCompare (n1 ++ tagBytes t1) (n2 ++ tagBytes t2) := by
  have hlen1 : (AppendSeriesKey [] n1 t1).length ≠ 0 := by
    rw [appendSeriesKey_length]
    unfold SeriesKeySize SeriesKeyOffsetsSize
    omega
  have hlen2 : (AppendSeriesKey [] n2 t2).length ≠ 0 := by
    rw [appendSeriesKey_length]
    unfold SeriesKeySize SeriesKeyOffsetsSize
    omega
  simp only [CompareSeriesKeys]
  rw [if_neg (fun hc => hlen1 hc.1), if_neg hlen1, if_neg hlen2]
  rw [getUint16_enc_zero n1 t1 ht1, getUint16_enc_zero n2 t2 ht2,
    getUint16_enc_paysize n1 t1 hb1, getUint16_enc_paysize n2 t2 hb2,
    drop_enc_payload n1 t1, drop_enc_payload n2 t2]
  have htake1 : (n1 ++ tagBytes t1).take (SeriesKeyBytesSize n1 t1) = n1 ++ tagBytes t1 := by
    rw [show SeriesKeyBytesSize n1 t1 = (n1 ++ tagBytes t1).length from by
      rw [seriesKeyBytesSize_eq]; simp]
    exact List.take_length _
  have htake2 : (n2 ++ tagBytes t2).take (SeriesKeyBytesSize n2 t2) = n2 ++ tagBytes t2 := by
    rw [show SeriesKeyBytesSize n2 t2 = (n2 ++ tagBytes t2).length from by
      rw [seriesKeyBytesSize_eq]; simp]
    exact List.take_length _
  rw [htake1, htake2]

end TsdbSeries

namespace TsdbSeries

/-! ### Bulk generation -/

theorem genKeysLoop_eq :
    ∀ (names : List (List Nat)) (tagsSlice : List Tags) (buf : List Nat),
      names.length = tagsSlice.length →
      genKeysLoop buf names tagsSlice
        = some (List.zipWith (fun n t => AppendSeriesKey [] n t) names tagsSlice) := by
  intro names
  induction names with
  | nil => intro ts buf h; rfl
  | cons n ns ih =>
      intro ts buf h
      cases ts with
      | nil => simp at h
      | cons t r =>
          have hdrop : (AppendSeriesKey buf n t).drop buf.length = AppendSeriesKey [] n t := by
            rw [appendSeriesKey_append, drop_app]
          simp only [genKeysLoop]
          rw [ih r (AppendSeriesKey buf n t) (by simpa using h), hdrop]
          rfl

theorem seriesKeysSize_eq :
    ∀ (names : List (List Nat)) (tagsSlice : List Tags),
      names.length = tagsSlice.length →
      SeriesKeysSize names tagsSlice
        = some ((List.zipWith SeriesKeySize names tagsSlice).sum) := by
  intro names
  induction names with
  | nil => intro ts h; rfl
  | cons n ns ih =>
      intro ts h
      cases ts with
      | nil => simp at h
      | cons t r =>
          simp only [SeriesKeysSize]
          rw [ih r (by simpa using h)]
          simp [List.sum_cons]

theorem zip_flatten_len :
    ∀ (names : List (List Nat)) (tagsSlice : List Tags),
      ((List.zipWith (fun n t => AppendSeriesKey [] n t) names tagsSlice).flatten).length
        = (List.zipWith SeriesKeySize names tagsSlice).sum := by
  intro names
  induction names with
  | nil => intro ts; rfl
  | cons n ns ih =>
      intro ts
      cases ts with
      | nil => rfl
      | cons t r =>
          simp only [List.zipWith_cons_cons, List.flatten_cons, List.sum_cons]
          rw [List.length_append, ih r, appendSeriesKey_length]
          simp

theorem seriesKeysSize_isSome :
    ∀ (names : List (List Nat)) (tagsSlice : List Tags),
      names.length ≤ tagsSlice.length → (SeriesKeysSize names tagsSlice).isSome := by
  intro names
  induction names with
  | nil => intro ts h; rfl
  | cons n ns ih =>
      intro ts h
      cases ts with
      | nil => simp at h
      | cons t r =>
          simp only [SeriesKeysSize, Option.isSome_map']
          exact ih r (by simpa using h)

theorem seriesKeysSize_none :
    ∀ (names : List (List Nat)) (tagsSlice : List Tags),
      tagsSlice.length < names.length → SeriesKeysSize names tagsSlice = none := by
  intro names
  induction names with
  | nil => intro ts h; simp at h
  | cons n ns ih =>
      intro ts h
      cases ts with
      | nil => rfl
      | cons t r =>
          simp only [SeriesKeysSize]
          rw [ih r (by simp at h; omega)]
          rfl

theorem genKeysLoop_isSome :
    ∀ (names : List (List Nat)) (tagsSlice : List Tags) (buf : List Nat),
      names.length ≤ tagsSlice.length → (genKeysLoop buf names tagsSlice).isSome := by
  intro names
  induction names with
  | nil => intro ts buf h; rfl
  | cons n ns ih =>
      intro ts buf h
      cases ts with
      | nil => simp at h
      | cons t r =>
          simp only [genKeysLoop, Option.isSome_map']
          exact ih r (AppendSeriesKey buf n t) (by simpa using h)

end TsdbSeries

namespace TsdbSeries

/-- The `nameLen` header of an encoded key is always the name length reduced
modulo 2^16 — the encoder performs no size validation. -/
theorem getUint16_enc_namelen (name : List Nat) (ts : Tags) :
    GetUint16 (AppendSeriesKey [] name ts) 2 = name.length % 65536 := by
  rw [appendSeriesKey_eq]
  simp only [List.nil_append]
  exact getUint16_field _ (u16 (SeriesKeyOffsetsSize ts.length)) _ 2 name.length rfl
    (u16_length _).symm

/-- C1 (amended): for every name of at most 65535 bytes, tag set of at most
16383 tags (so the 16-bit offsets-size header `2 + 4*tagCount` does not
wrap) whose tag keys and values are each at most 65535 bytes,
`ParseSeriesKey (AppendSeriesKey nil name tags)` returns exactly the
original name and tag list, in the order supplied. -/
theorem claim_C1_roundtrip (name : List Nat) (ts : Tags)
    (h1 : name.length ≤ 65535)
    (h2 : ∀ t ∈ ts, t.Key.length ≤ 65535 ∧ t.Value.length ≤ 65535)
    (h3 : ts.length ≤ 16383) :
    ParseSeriesKey (AppendSeriesKey [] name ts) = (name, ts) :=
  parse_append name ts h1 h2 h3

/-- C1 witness: the round-trip theorem applied at name `[97]` and a single
tag `([98], [99])`. -/
theorem claim_C1_witness :
    ([97] : List Nat).length ≤ 65535
      ∧ (∀ t ∈ ([Tag.mk [98] [99]] : Tags),
          t.Key.length ≤ 65535 ∧ t.Value.length ≤ 65535)
      ∧ ([Tag.mk [98] [99]] : Tags).length ≤ 16383
      ∧ ParseSeriesKey (AppendSeriesKey [] [97] [Tag.mk [98] [99]])
          = ([97], [Tag.mk [98] [99]]) :=
  ⟨by decide, by decide, by decide,
    claim_C1_roundtrip [97] [Tag.mk [98] [99]] (by decide) (by decide) (by decide)⟩

/-- When the offsets-size header of a key with an empty name wraps to
exactly 2 modulo 2^16, the decoder reads back zero tags: the buffer below
is the exact normal form of `AppendSeriesKey [] [] ts`. -/
theorem parse_wrapped_empty (ts : Tags)
    (hofs : SeriesKeyOffsetsSize ts.length % 65536 = 2) :
    (ParseSeriesKeyTags ([] ++ (u16 (SeriesKeyOffsetsSize ts.length)
      ++ (u16 ([] : List Nat).length
        ++ (tagLens ts ++ (u16 (SeriesKeyBytesSize [] ts)
          ++ (([] : List Nat) ++ tagBytes ts))))))).2.length = 0 := by
  simp only [List.nil_append]
  simp only [ParseSeriesKeyTags]
  rw [getUint16_u16, hofs]
  rw [(rfl : ((2 : Nat) - 2) / 4 = 0)]
  simp only [parseTagsLoop, List.length_nil]

/-- C1 counterexample: 16384 tags with empty keys and values satisfy every
length hypothesis of the claim as stated (name, tag keys and tag values all
at most 65535 bytes), yet the offsets-size header `2 + 4*16384 = 65538`
wraps to `2` in its 16-bit field, so decoding the encoded key returns an
empty tag list instead of a tag list of length 16384. -/
theorem claim_C1_counterexample :
    (List.replicate 16384 (Tag.mk [] [])).length = 16384
      ∧ (∀ t ∈ List.replicate 16384 (Tag.mk [] []),
          t.Key.length ≤ 65535 ∧ t.Value.length ≤ 65535)
      ∧ ([] : List Nat).length ≤ 65535
      ∧ (ParseSeriesKey
          (AppendSeriesKey [] [] (List.replicate 16384 (Tag.mk [] [])))).2.length = 0 := by
  refine ⟨by rw [List.length_replicate], ?_, by simp, ?_⟩
  · intro t ht
    have heq := List.eq_of_mem_replicate ht
    subst heq
    exact ⟨by simp, by simp⟩
  · exact Eq.trans
      (congrArg (fun x => (ParseSeriesKeyTags x).2.length)
        (appendSeriesKey_eq [] [] (List.replicate 16384 (Tag.mk [] []))))
      (parse_wrapped_empty (List.replicate 16384 (Tag.mk [] []))
        (by rw [List.length_replicate]; decide))

end TsdbSeries

namespace TsdbSeries

/-- When the name-length header of a tagless key wraps to 0 modulo 2^16,
the decoder returns an empty name and no tags: the buffer below is the
exact normal form of `AppendSeriesKey [] name []`. -/
theorem parse_wrapped_name (name : List Nat) (hname : name.length % 65536 = 0) :
    ParseSeriesKeyTags ([] ++ (u16 (SeriesKeyOffsetsSize ([] : Tags).length)
      ++ (u16 name.length ++ (tagLens []
        ++ (u16 (SeriesKeyBytesSize name []) ++ (name ++ tagBytes [])))))) = ([], []) := by
  simp only [List.nil_append, tagLens, tagBytes, List.append_nil, List.length_nil]
  simp only [ParseSeriesKeyTags]
  rw [getUint16_u16]
  rw [(by decide : SeriesKeyOffsetsSize 0 % 65536 = 2)]
  rw [getUint16_field _ (u16 (SeriesKeyOffsetsSize 0)) _ 2 name.length rfl
    (u16_length _).symm]
  rw [hname]
  rw [(rfl : ((2 : Nat) - 2) / 4 = 0)]
  simp only [parseTagsLoop, List.take_zero]

/-- The size of a tagless key: header (2+2+2) plus name bytes. -/
theorem seriesKeySize_nil_tags (name : List Nat) :
    SeriesKeySize name [] = name.length + 6 := by
  unfold SeriesKeySize SeriesKeyBytesSize SeriesKeyOffsetsSize
  simp
  omega

/-- C4 counterexample: a name of 65536 bytes (one more than the 16-bit
limit) is not rejected: `AppendSeriesKey` has no error result and happily
produces a full-size 65542-byte key whose name-length header has wrapped to
0, so the key decodes to an empty name — silent wrapping, not rejection. -/
theorem claim_C4_counterexample :
    65535 < (List.replicate 65536 97 : List Nat).length
      ∧ (AppendSeriesKey [] (List.replicate 65536 97) []).length = 65542
      ∧ GetUint16 (AppendSeriesKey [] (List.replicate 65536 97) []) 2 = 0
      ∧ ParseSeriesKey (AppendSeriesKey [] (List.replicate 65536 97) []) = ([], []) := by
  refine ⟨by rw [List.length_replicate]; decide, ?_, ?_, ?_⟩
  · rw [appendSeriesKey_length, seriesKeySize_nil_tags, List.length_replicate]
    decide
  · exact Eq.trans (getUint16_enc_namelen (List.replicate 65536 97) [])
      (by rw [List.length_replicate])
  · exact Eq.trans
      (congrArg ParseSeriesKeyTags
        (appendSeriesKey_eq [] (List.replicate 65536 97) []))
      (parse_wrapped_name (List.replicate 65536 97) (by rw [List.length_replicate]))

/-- C4 (amended): `AppendSeriesKey` performs no size validation and has no
error result: every length header is written modulo 2^16, so a field longer
than 65535 bytes is silently wrapped rather than rejected with a size-limit
error, while a field of exactly 65535 bytes is encoded and decoded
correctly. -/
theorem claim_C4_wrap :
    (∀ (name : List Nat) (ts : Tags),
        GetUint16 (AppendSeriesKey [] name ts) 2 = name.length % 65536)
      ∧ ParseSeriesKey (AppendSeriesKey [] (List.replicate 65535 97) [])
          = (List.replicate 65535 97, []) := by
  constructor
  · exact getUint16_enc_namelen
  · exact parse_append (List.replicate 65535 97) []
      (by rw [List.length_replicate]) (by simp) (by simp)

end TsdbSeries

namespace TsdbSeries

/-- C2: on two non-empty well-formed encoded keys (headers within 16-bit
range: at most 16383 tags and payload at most 65535 bytes each),
`CompareSeriesKeys` equals the lexicographic byte comparison
(`bytes.Compare`) of the two payload sub-ranges located via each key's own
headers, i.e. of the raw name-plus-tag-bytes payloads; `bytesCompare` is
exactly the standard strict lexicographic order on byte lists
(shorter-is-less on common-prefix equality, values in {-1, 0, 1}); and the
spec's concrete instance `Compare(Encode("aaa", {taaa:vaaa}),
Encode("aaa", {tbbb:vaaa})) = -1` holds. -/
theorem claim_C2 (n1 : List Nat) (t1 : Tags) (n2 : List Nat) (t2 : Tags)
    (hb1 : SeriesKeyBytesSize n1 t1 ≤ 65535) (ht1 : t1.length ≤ 16383)
    (hb2 : SeriesKeyBytesSize n2 t2 ≤ 65535) (ht2 : t2.length ≤ 16383) :
    CompareSeriesKeys (AppendSeriesKey [] n1 t1) (AppendSeriesKey [] n2 t2)
        = bytesCompare (n1 ++ tagBytes t1) (n2 ++ tagBytes t2)
      ∧ (∀ x y : List Nat,
          (bytesCompare x y = -1 ↔ List.Lex (· < ·) x y)
            ∧ (bytesCompare x y = 0 ↔ x = y)
            ∧ (bytesCompare x y = 1 ↔ List.Lex (· < ·) y x))
      ∧ CompareSeriesKeys
          (AppendSeriesKey [] [97, 97, 97] [Tag.mk [116, 97, 97, 97] [118, 97, 97, 97]])
          (AppendSeriesKey [] [97, 97, 97] [Tag.mk [116, 98, 98, 98] [118, 97, 97, 97]])
          = -1 := by
  refine ⟨compare_append n1 t1 n2 t2 hb1 ht1 hb2 ht2, ?_, by decide⟩
  intro x y
  exact ⟨bytesCompare_neg_iff x y, bytesCompare_zero_iff x y, bytesCompare_one_iff x y⟩

/-- C2 witness: the comparator/payload theorem applied at the encoded keys
of names `[97]` and `[98]` with no tags. -/
theorem claim_C2_witness :
    SeriesKeyBytesSize [97] [] ≤ 65535 ∧ ([] : Tags).length ≤ 16383
      ∧ SeriesKeyBytesSize [98] [] ≤ 65535 ∧ ([] : Tags).length ≤ 16383
      ∧ CompareSeriesKeys (AppendSeriesKey [] [97] []) (AppendSeriesKey [] [98] [])
          = bytesCompare ([97] ++ tagBytes []) ([98] ++ tagBytes []) :=
  ⟨by decide, by decide, by decide, by decide,
    (claim_C2 [97] [] [98] [] (by decide) (by decide) (by decide) (by decide)).1⟩

/-- C3: the encoded key has exactly the computed size:
`len(AppendSeriesKey(nil, name, tags)) = SeriesKeySize(name, tags)`, and
`SeriesKeySize` equals `(2 + 4*len(tags)) + (len(name) + Σ (len(key) +
len(value))) + 4`, for every input with no size restriction. -/
theorem claim_C3 (name : List Nat) (ts : Tags) :
    (AppendSeriesKey [] name ts).length = SeriesKeySize name ts
      ∧ SeriesKeySize name ts
        = (2 + 4 * ts.length)
          + (name.length + (ts.map (fun t => t.Key.length + t.Value.length)).sum)
          + 4 := by
  constructor
  · simp [appendSeriesKey_length]
  · unfold SeriesKeySize SeriesKeyOffsetsSize
    rw [seriesKeyBytesSize_eq, tagBytes_length]

/-- C5: `CompareSeriesKeys` is a deterministic total order on encoded keys:
reflexive (`Compare(k,k) = 0`), antisymmetric (`Compare(a,b) =
-Compare(b,a)`), transitive on the `≤ 0` relation, and — being a pure
function of its arguments — trivially deterministic across repeated calls. -/
theorem claim_C5 :
    (∀ (n : List Nat) (t : Tags),
        CompareSeriesKeys (AppendSeriesKey [] n t) (AppendSeriesKey [] n t) = 0)
      ∧ (∀ (n1 : List Nat) (t1 : Tags) (n2 : List Nat) (t2 : Tags),
          CompareSeriesKeys (AppendSeriesKey [] n1 t1) (AppendSeriesKey [] n2 t2)
            = -CompareSeriesKeys (AppendSeriesKey [] n2 t2) (AppendSeriesKey [] n1 t1))
      ∧ (∀ (n1 : List Nat) (t1 : Tags) (n2 : List Nat) (t2 : Tags)
            (n3 : List Nat) (t3 : Tags),
          CompareSeriesKeys (AppendSeriesKey [] n1 t1) (AppendSeriesKey [] n2 t2) ≤ 0 →
          CompareSeriesKeys (AppendSeriesKey [] n2 t2) (AppendSeriesKey [] n3 t3) ≤ 0 →
          CompareSeriesKeys (AppendSeriesKey [] n1 t1) (AppendSeriesKey [] n3 t3) ≤ 0)
      ∧ (∀ a b : List Nat, CompareSeriesKeys a b = CompareSeriesKeys a b) := by
  refine ⟨?_, ?_, ?_, ?_⟩
  · intro n t
    exact compareSeriesKeys_self _
  · intro n1 t1 n2 t2
    exact compareSeriesKeys_antisym _ _
  · intro n1 t1 n2 t2 n3 t3 h1 h2
    exact compareSeriesKeys_trans _ _ _ h1 h2
  · intro a b
    rfl

/-- C5 witness: transitivity applied at the encoded keys of names `[97]`,
`[98]`, `[99]` with no tags. -/
theorem claim_C5_witness :
    CompareSeriesKeys (AppendSeriesKey [] [97] []) (AppendSeriesKey [] [98] []) ≤ 0
      ∧ CompareSeriesKeys (AppendSeriesKey [] [98] []) (AppendSeriesKey [] [99] []) ≤ 0
      ∧ CompareSeriesKeys (AppendSeriesKey [] [97] []) (AppendSeriesKey [] [99] []) ≤ 0 :=
  ⟨by decide, by decide,
    claim_C5.2.2.1 [97] [] [98] [] [99] [] (by decide) (by decide)⟩

/-- C6: nil-key ordering of `CompareSeriesKeys`: two empty buffers compare
equal, and the empty buffer compares below (above) any non-empty buffer. -/
theorem claim_C6 :
    CompareSeriesKeys [] [] = 0
      ∧ ∀ k : List Nat, k ≠ [] →
          CompareSeriesKeys [] k = -1 ∧ CompareSeriesKeys k [] = 1 := by
  refine ⟨by decide, ?_⟩
  intro k hk
  have hlen : k.length ≠ 0 := by
    intro h
    exact hk (List.length_eq_zero.mp h)
  constructor
  · simp only [CompareSeriesKeys]
    rw [if_neg (fun hc => hlen hc.2),
      if_pos (show ([] : List Nat).length = 0 from rfl)]
  · simp only [CompareSeriesKeys]
    rw [if_neg (fun hc => hlen hc.1), if_neg hlen,
      if_pos (show ([] : List Nat).length = 0 from rfl)]

/-- C6 witness: the nil-key ordering applied at the non-empty buffer `[97]`. -/
theorem claim_C6_witness :
    ([97] : List Nat) ≠ []
      ∧ CompareSeriesKeys [] [97] = -1 ∧ CompareSeriesKeys [97] [] = 1 :=
  ⟨by decide, (claim_C6.2 [97] (by decide)).1, (claim_C6.2 [97] (by decide)).2⟩

end TsdbSeries

namespace TsdbSeries

/-- C7: for equal-length parallel lists, `GenerateSeriesKeys` succeeds and
returns exactly one key per input pair, the i-th returned key being
byte-for-byte `AppendSeriesKey(nil, names[i], tagsSlice[i])` (the returned
list is the `zipWith` of the standalone encoder); the keys are laid out
back-to-back in input order, so their concatenation is the whole buffer and
its total length is exactly `SeriesKeysSize(names, tagsSlice)`. -/
theorem claim_C7 (names : List (List Nat)) (tagsSlice : List Tags)
    (h : names.length = tagsSlice.length) :
    GenerateSeriesKeys names tagsSlice
        = some (List.zipWith (fun n t => AppendSeriesKey [] n t) names tagsSlice)
      ∧ (List.zipWith (fun n t => AppendSeriesKey [] n t) names tagsSlice).length
          = names.length
      ∧ SeriesKeysSize names tagsSlice
          = some ((List.zipWith (fun n t => AppendSeriesKey [] n t)
              names tagsSlice).flatten.length) := by
  refine ⟨?_, ?_, ?_⟩
  · unfold GenerateSeriesKeys
    rw [seriesKeysSize_eq names tagsSlice h]
    exact genKeysLoop_eq names tagsSlice [] h
  · rw [List.length_zipWith]
    omega
  · rw [seriesKeysSize_eq names tagsSlice h, zip_flatten_len]

/-- C7 witness: bulk equivalence applied at one name `[97]` with one tag
`([98], [99])`. -/
theorem claim_C7_witness :
    ([[97]] : List (List Nat)).length = ([[Tag.mk [98] [99]]] : List Tags).length
      ∧ GenerateSeriesKeys [[97]] [[Tag.mk [98] [99]]]
          = some (List.zipWith (fun n t => AppendSeriesKey [] n t)
              [[97]] [[Tag.mk [98] [99]]]) :=
  ⟨rfl, (claim_C7 [[97]] [[Tag.mk [98] [99]]] rfl).1⟩

/-- C8: appending to a destination buffer preserves it: the result has
length `len(dst) + SeriesKeySize(name, tags)`, its first `len(dst)` bytes
are exactly the old `dst`, and the remaining bytes are exactly the
standalone encoding `AppendSeriesKey(nil, name, tags)` — no truncation.
(Capacity growth and reallocation are memory-layout concerns with no
observable effect on the returned byte string.) -/
theorem claim_C8 (dst name : List Nat) (ts : Tags) :
    (AppendSeriesKey dst name ts).length = dst.length + SeriesKeySize name ts
      ∧ (AppendSeriesKey dst name ts).take dst.length = dst
      ∧ (AppendSeriesKey dst name ts).drop dst.length = AppendSeriesKey [] name ts := by
  refine ⟨appendSeriesKey_length dst name ts, ?_, ?_⟩
  · rw [appendSeriesKey_append]
    exact take_app _ _
  · rw [appendSeriesKey_append]
    exact drop_app _ _

/-- C9 counterexample: with one name but two tag sets (mismatched list
lengths), `GenerateSeriesKeys` and `SeriesKeysSize` succeed, silently
ignoring the extra tag set, instead of rejecting the call up front with a
mismatched-list-length error. -/
theorem claim_C9_counterexample :
    ([[97]] : List (List Nat)).length ≠ ([[], []] : List Tags).length
      ∧ GenerateSeriesKeys [[97]] [[], []] = some [AppendSeriesKey [] [97] []]
      ∧ SeriesKeysSize [[97]] [[], []] = some (SeriesKeySize [97] []) := by
  refine ⟨by decide, by decide, by decide⟩

/-- C9 (amended): the bulk paths perform no up-front length validation:
when the tag-set list is at least as long as the name list both calls
succeed (extra tag sets are silently ignored); when the name list is longer
the out-of-range index access panics at the point of access (modelled as
`none`) rather than being rejected up front with an error value. -/
theorem claim_C9_behavior (names : List (List Nat)) (tagsSlice : List Tags) :
    (names.length ≤ tagsSlice.length →
        (SeriesKeysSize names tagsSlice).isSome
          ∧ (GenerateSeriesKeys names tagsSlice).isSome)
      ∧ (tagsSlice.length < names.length →
        SeriesKeysSize names tagsSlice = none
          ∧ GenerateSeriesKeys names tagsSlice = none) := by
  constructor
  · intro h
    refine ⟨seriesKeysSize_isSome names tagsSlice h, ?_⟩
    unfold GenerateSeriesKeys
    have hs := seriesKeysSize_isSome names tagsSlice h
    cases hval : SeriesKeysSize names tagsSlice with
    | none =>
        rw [hval] at hs
        simp at hs
    | some s =>
        simp only [hval]
        exact genKeysLoop_isSome names tagsSlice [] h
  · intro h
    refine ⟨seriesKeysSize_none names tagsSlice h, ?_⟩
    unfold GenerateSeriesKeys
    rw [seriesKeysSize_none names tagsSlice h]

/-- C9 witness: the amended behavior applied at one name and two tag sets. -/
theorem claim_C9_witness :
    ([[97]] : List (List Nat)).length ≤ ([[], []] : List Tags).length
      ∧ (SeriesKeysSize [[97]] [[], []]).isSome
      ∧ (GenerateSeriesKeys [[97]] [[], []]).isSome :=
  ⟨by decide, ((claim_C9_behavior [[97]] [[], []]).1 (by decide)).1,
    ((claim_C9_behavior [[97]] [[], []]).1 (by decide)).2⟩

/-- C10: the comparator cannot distinguish distinct series whose payloads
concatenate to the same bytes: name `"ab"` with no tags and name `"a"` with
the single tag `("b", "")` encode to different byte strings, yet
`CompareSeriesKeys` returns 0 on them, because it compares only the
concatenated payload `"ab"`. -/
theorem claim_C10 :
    ([97, 98] : List Nat) ≠ [97]
      ∧ AppendSeriesKey [] [97, 98] [] ≠ AppendSeriesKey [] [97] [Tag.mk [98] []]
      ∧ CompareSeriesKeys (AppendSeriesKey [] [97, 98] [])
          (AppendSeriesKey [] [97] [Tag.mk [98] []]) = 0 := by
  refine ⟨by decide, by decide, by decide⟩

end TsdbSeries
